import Mathlib

/-!
A shallow embedding of the graph6/digraph6 codec (crate graph6-rs):
`src/utils.rs`, `src/undirected.rs`, `src/directed.rs`, `src/write.rs`,
`src/error.rs`.  Byte strings are modelled as `List Nat` of byte values
(all inputs and outputs relevant here are ASCII, where chars and bytes
coincide).  Rust `usize`/`u8` arithmetic is modelled over `Nat` with the
debug-profile semantics: a subtraction that would underflow, an
out-of-bounds index, or a failed `unwrap` is a panic, modelled as
`Option.none` (for helpers) or `Fail.panic` (for the public decoders).
-/

namespace Graph6

/-- The typed error enum of `src/error.rs` (`IOError`). -/
inductive GError where
  | InvalidDigraphHeader
  | InvalidSizeChar
  | GraphTooLarge
  | InvalidAdjacencyMatrix
  | NonCanonicalEncoding
deriving DecidableEq

/-- Outcome of a fallible Rust computation: a typed error or a panic. -/
inductive Fail where
  | ioerr (e : GError)
  | panic
deriving DecidableEq

/-- Rust unsigned subtraction, debug profile: panics (`none`) on underflow. -/
def checkedSub (a b : Nat) : Option Nat :=
  if b ≤ a then some (a - b) else none

/-- Lift a panicking computation into the decoder result monad. -/
def liftP {α : Type} : Option α → Except Fail α
  | some a => Except.ok a
  | none => Except.error Fail.panic

/-- `utils::get_size(bytes, pos)`: reads `bytes[pos]` (panic when out of
range), rejects 126 as `GraphTooLarge` and bytes below 63 as
`InvalidSizeChar`, and otherwise returns `byte - 63`. -/
def get_size (bytes : List Nat) (pos : Nat) : Except Fail Nat :=
  match bytes[pos]? with
  | none => Except.error Fail.panic
  | some size =>
    if size = 126 then Except.error (Fail.ioerr GError.GraphTooLarge)
    else if size < 63 then Except.error (Fail.ioerr GError.InvalidSizeChar)
    else Except.ok (size - 63)

/-- Inner bit loop of `utils::fill_bitvector`: for `i` from `6 - fuel`
upward, push bit `(v >> (5 - i)) & 1` and increment `pos`; the `break`
fires (ending only this byte) right after the push that makes
`pos == size`.  Returns the pushed bits and the final `pos`. -/
def fillBitsAux (v size : Nat) : Nat → Nat → Nat → List Nat × Nat
  | 0, _, pos => ([], pos)
  | fuel + 1, i, pos =>
    let bit := (v >>> (5 - i)) % 2
    if pos + 1 = size then ([bit], pos + 1)
    else
      let r := fillBitsAux v size fuel (i + 1) (pos + 1)
      (bit :: r.1, r.2)

/-- Outer byte loop of `utils::fill_bitvector`: every remaining byte is
visited (the `break` above exits only the bit loop), `b - 63` panicking
on underflow. -/
def fillOuter (size : Nat) : List Nat → Nat → Option (List Nat)
  | [], _ => some []
  | b :: rest, pos => do
    let v ← checkedSub b 63
    let r := fillBitsAux v size 6 0 pos
    let tail ← fillOuter size rest r.2
    some (r.1 ++ tail)

/-- `utils::fill_bitvector(bytes, size, offset)`. -/
def fill_bitvector (bytes : List Nat) (size offset : Nat) : Option (List Nat) :=
  fillOuter size (bytes.drop offset) 0

/-- The expression `n * (n - 1) / 2` as Rust computes it: the `usize`
subtraction `n - 1` panics for `n = 0` (debug profile). -/
def tri_len (n : Nat) : Option Nat :=
  (checkedSub n 1).map (fun m => n * m / 2)

/-- The index pairs `(i, j)` visited by `for i in 1..n { for j in 0..i }`
(the `i = 0` round contributes nothing, so `range n` is the same loop). -/
def triPairs (n : Nat) : List (Nat × Nat) :=
  (List.range n).flatMap (fun i => (List.range i).map (fun j => (i, j)))

/-- `utils::upper_triangle(bit_vec, n)`: the capacity `n*(n-1)/2` panics
for `n = 0`; each `bit_vec[i*n+j]` read panics when out of bounds. -/
def upper_triangle (bit_vec : List Nat) (n : Nat) : Option (List Nat) := do
  let _ ← tri_len n
  (triPairs n).mapM (fun p => bit_vec[p.fst * n + p.snd]?)

/-- `undirected::Graph`: flattened bit matrix and vertex count. -/
structure Graph where
  bit_vec : List Nat
  n : Nat
deriving DecidableEq

/-- Loop of `Graph::fill_from_triangle`: for each pair, `tri_iter.next().unwrap()`
(panic when the triangle is exhausted), then set `bit_vec[i*n+j]` and
`bit_vec[j*n+i]` to that value.  All indices are in range
(`i, j < n`, the vector has length `n*n`), so `List.set` is faithful. -/
def triGo (n : Nat) : List (Nat × Nat) → List Nat → List Nat → Option (List Nat)
  | [], _, bv => some bv
  | _ :: _, [], _ => none
  | p :: ps, v :: tri, bv =>
    triGo n ps tri ((bv.set (p.fst * n + p.snd) v).set (p.snd * n + p.fst) v)

/-- `Graph::fill_from_triangle(tri, n)`. -/
def fill_from_triangle (tri : List Nat) (n : Nat) : Option (List Nat) :=
  triGo n (triPairs n) tri (List.replicate (n * n) 0)

/-- `Graph::build_bitvector(bytes, n)`: `bv_len = n*(n-1)/2` (panics at
`n = 0`), unpack with offset 1, expand the triangle. -/
def g_build_bitvector (bytes : List Nat) (n : Nat) : Option (List Nat) := do
  let bvLen ← tri_len n
  let tri ← fill_bitvector bytes bvLen 1
  fill_from_triangle tri n

/-- `Graph::from_g6(repr)`. -/
def from_g6 (repr : List Nat) : Except Fail Graph :=
  match get_size repr 0 with
  | Except.error e => Except.error e
  | Except.ok n =>
    match g_build_bitvector repr n with
    | none => Except.error Fail.panic
    | some bv => Except.ok ⟨bv, n⟩

/-- The index pairs of the double loop `for i in 0..n { for j in 0..n }`. -/
def allPairs (n : Nat) : List (Nat × Nat) :=
  (List.range n).flatMap (fun i => (List.range n).map (fun j => (i, j)))

/-- Loop of `Graph::from_adj`: when `adj[i*n+j] == 1`, set both
`bit_vec[i*n+j]` and `bit_vec[j*n+i]` to 1.  All reads and writes are in
range (`i, j < n`, both vectors have length `n*n`), so `getD`/`set` are
faithful. -/
def adjGo (adj : List Nat) (n : Nat) : List (Nat × Nat) → List Nat → List Nat
  | [], bv => bv
  | p :: ps, bv =>
    adjGo adj n ps
      (if adj.getD (p.fst * n + p.snd) 0 = 1 then
        (bv.set (p.fst * n + p.snd) 1).set (p.snd * n + p.fst) 1
      else bv)

/-- Integer square root, structurally recursive (so that concrete
instances compute inside the kernel).  `isqrt_eq_sqrt` below shows it is
`Nat.sqrt`. -/
def isqrt : Nat → Nat
  | 0 => 0
  | m + 1 =>
    let r := isqrt m
    if (r + 1) * (r + 1) ≤ m + 1 then r + 1 else r

/-- `Graph::from_adj(adj)`.  The source computes
`n = (len as f64).sqrt() as usize`; IEEE-754 double sqrt is correctly
rounded, so this equals the integer square root of `len` for every
length below `2^52` (any allocatable slice), which is how it is
modelled here. -/
def from_adj (adj : List Nat) : Except Fail Graph :=
  let n2 := adj.length
  let n := isqrt n2
  if n * n ≠ n2 then Except.error (Fail.ioerr GError.InvalidAdjacencyMatrix)
  else Except.ok ⟨adjGo adj n (allPairs n) (List.replicate (n * n) 0), n⟩

/-- `directed::DiGraph`: flattened bit matrix and vertex count. -/
structure DiGraph where
  bit_vec : List Nat
  n : Nat
deriving DecidableEq

/-- `DiGraph::valid_digraph(repr)`: reads `repr[0]` unconditionally
(panic on empty input) and compares with the byte of the char `&` (38). -/
def valid_digraph (repr : List Nat) : Option Bool :=
  (repr[0]?).map (fun b => b == 38)

/-- `DiGraph::get_size(repr)`: `(repr[1] - 63) as usize` with no
validation; panics when the input is shorter than 2 bytes or the `u8`
subtraction underflows (byte below 63). -/
def d_get_size (repr : List Nat) : Option Nat := do
  let b ← repr[1]?
  checkedSub b 63

/-- Bits of one byte in `DiGraph::build_bitvector`:
`for shift in (0..6).rev() { push(if byte & 1 << shift > 0 {1} else {0}) }`. -/
def dByteBits (v : Nat) : List Nat :=
  (List.range 6).map (fun i => if v &&& (1 <<< (5 - i)) > 0 then 1 else 0)

/-- Byte loop of `DiGraph::build_bitvector` over `.skip(2).take(n)`;
`byte - 63` panics on underflow. -/
def dLoop : List Nat → Option (List Nat)
  | [] => some []
  | b :: rest => do
    let v ← checkedSub b 63
    let tail ← dLoop rest
    some (dByteBits v ++ tail)

/-- `DiGraph::adjust_bitvector_len(bit_vec, bv_len)`:
`adj_bv_len = len - (len - bv_len)` with panicking `usize` subtraction
(the inner one underflows whenever fewer than `bv_len` bits were read),
then `resize(adj_bv_len, 0)`. -/
def adjust_bitvector_len (bits : List Nat) (bvLen : Nat) : Option (List Nat) := do
  let d ← checkedSub bits.length bvLen
  let adjLen ← checkedSub bits.length d
  some (if adjLen ≤ bits.length then bits.take adjLen
        else bits ++ List.replicate (adjLen - bits.length) 0)

/-- `DiGraph::build_bitvector(bytes, n)`: reads `.skip(2).take(n)` bytes
(note: `n` bytes, not `ceil(n*n/6)`), then adjusts to length `n*n`. -/
def d_build_bitvector (bytes : List Nat) (n : Nat) : Option (List Nat) := do
  let bits ← dLoop ((bytes.drop 2).take n)
  adjust_bitvector_len bits (n * n)

/-- `DiGraph::from_d6(repr)`. -/
def from_d6 (repr : List Nat) : Except Fail DiGraph :=
  match valid_digraph repr with
  | none => Except.error Fail.panic
  | some false => Except.error (Fail.ioerr GError.InvalidDigraphHeader)
  | some true =>
    match d_get_size repr with
    | none => Except.error Fail.panic
    | some n =>
      match d_build_bitvector repr n with
      | none => Except.error Fail.panic
      | some bv => Except.ok ⟨bv, n⟩

/-- `char::from_u32(v)`: `none` exactly on surrogates and values above
`0x10FFFF` (the subsequent `.unwrap()` then panics). -/
def charFromU32 (v : Nat) : Option Nat :=
  if (0xD800 ≤ v ∧ v ≤ 0xDFFF) ∨ 0x10FFFF < v then none else some v

/-- `char::from_u32(s as u32 + 63).unwrap()` where `s : usize`: the
`as u32` cast wraps, the `u32` addition panics on overflow (debug), and
`s` itself is below `2^64` by type (a `usize` accumulation that would
exceed `2^64` has already panicked, which the outer guard models). -/
def encode_char (s : Nat) : Option Nat :=
  if s < 2 ^ 64 then
    let v := s % 2 ^ 32
    if v + 63 < 2 ^ 32 then charFromU32 (v + 63) else none
  else none

/-- `write::write_size`. -/
def write_size (n : Nat) : Option Nat :=
  encode_char n

/-- `write::pad_bitvector`: right-pad with zeros to a multiple of 6
(no-op when already a multiple, including the empty vector). -/
def pad_bitvector (bv : List Nat) : List Nat :=
  if bv.length % 6 = 0 then bv
  else bv ++ List.replicate (6 - bv.length % 6) 0

/-- `slice::chunks(6)`: chunks of 6, last chunk possibly shorter, no
chunk for the empty slice. -/
def chunks6 : List Nat → List (List Nat)
  | [] => []
  | a :: b :: c :: d :: e :: f :: rest => [a, b, c, d, e, f] :: chunks6 rest
  | l => [l]

/-- Character value of one chunk in `write::parse_bitvector`:
`for (i, bit) in chunk.iter().rev().enumerate() { sum += bit * 2^i }`. -/
def chunkVal (c : List Nat) : Nat :=
  (c.reverse.enum).foldl (fun s p => s + p.snd * 2 ^ p.fst) 0

/-- `write::parse_bitvector`: one character per 6-bit chunk. -/
def parse_bitvector (bv : List Nat) : Option (List Nat) :=
  (chunks6 bv).mapM (fun c => encode_char (chunkVal c))

/-- `write::write_graph6(bit_vec, n, is_directed)`: header `&` iff
directed, the size char, then the packed (upper triangle if undirected)
padded bit vector. -/
def write_graph6 (bit_vec : List Nat) (n : Nat) (dir : Bool) : Option (List Nat) := do
  let bv ← if dir then some bit_vec else upper_triangle bit_vec n
  let sizeChar ← write_size n
  let data ← parse_bitvector (pad_bitvector bv)
  some ((if dir then [38] else []) ++ sizeChar :: data)

/-- Matrix entry read: `bit_vec[i*n+j]` (with default 0; all uses in the
theorems below are in range). -/
def matRead (bv : List Nat) (n i j : Nat) : Nat :=
  bv.getD (i * n + j) 0

deriving instance DecidableEq for Except

/-! ### Helper lemmas -/

theorem isqrt_spec (m : Nat) :
    isqrt m * isqrt m ≤ m ∧ m < (isqrt m + 1) * (isqrt m + 1) := by
  induction m with
  | zero => exact ⟨Nat.le_refl 0, Nat.zero_lt_one⟩
  | succ m ih =>
    by_cases h : (isqrt m + 1) * (isqrt m + 1) ≤ m + 1
    · have hs : isqrt (m + 1) = isqrt m + 1 := by simp [isqrt, h]
      refine ⟨hs ▸ h, ?_⟩
      rw [hs]
      exact Nat.lt_of_le_of_lt (Nat.succ_le_of_lt ih.2)
        (Nat.mul_self_lt_mul_self (Nat.lt_succ_self _))
    · have hs : isqrt (m + 1) = isqrt m := by simp [isqrt, h]
      rw [hs]
      exact ⟨Nat.le_succ_of_le ih.1, Nat.lt_of_not_le h⟩

theorem isqrt_eq_sqrt (m : Nat) : isqrt m = Nat.sqrt m := by
  have h := isqrt_spec m
  exact Nat.le_antisymm (Nat.le_sqrt.mpr h.1)
    (Nat.le_of_lt_succ (Nat.sqrt_lt.mpr h.2))

theorem getD_set_of_lt {l : List Nat} {k m v : Nat} (hk : k < l.length) :
    (l.set k v).getD m 0 = if m = k then v else l.getD m 0 := by
  by_cases hmk : m = k
  · subst hmk
    simp [List.getD_eq_getElem?_getD, List.getElem?_set_self hk]
  · simp [List.getD_eq_getElem?_getD, List.getElem?_set_ne (Ne.symm hmk), hmk]

theorem getD_replicate (m k : Nat) : (List.replicate m (0 : Nat)).getD k 0 = 0 := by
  rw [List.getD_eq_getElem?_getD, List.getElem?_replicate]
  split <;> rfl

theorem idx_lt {n a b : Nat} (ha : a < n) (hb : b < n) : a * n + b < n * n := by
  have h1 : a * n + b < (a + 1) * n := by
    rw [Nat.succ_mul]
    omega
  exact Nat.lt_of_lt_of_le h1 (Nat.mul_le_mul_right n ha)

theorem idx_inj {n a b c d : Nat} (hb : b < n) (hd : d < n)
    (h : a * n + b = c * n + d) : a = c ∧ b = d := by
  have hn : 0 < n := Nat.lt_of_le_of_lt (Nat.zero_le b) hb
  have h1 : (b + a * n) / n = a := by
    rw [Nat.add_mul_div_right _ _ hn, Nat.div_eq_of_lt hb, Nat.zero_add]
  have h2 : (d + c * n) / n = c := by
    rw [Nat.add_mul_div_right _ _ hn, Nat.div_eq_of_lt hd, Nat.zero_add]
  have hac : a = c := by
    have hh : b + a * n = d + c * n := by
      calc b + a * n = a * n + b := Nat.add_comm _ _
        _ = c * n + d := h
        _ = d + c * n := Nat.add_comm _ _
    rw [← h1, ← h2, hh]
  refine ⟨hac, ?_⟩
  subst hac
  exact Nat.add_left_cancel h

theorem mem_allPairs {n : Nat} {p : Nat × Nat} :
    p ∈ allPairs n ↔ p.1 < n ∧ p.2 < n := by
  constructor
  · intro hp
    rcases List.mem_flatMap.mp hp with ⟨i, hi, hmem⟩
    rcases List.mem_map.mp hmem with ⟨j, hj, rfl⟩
    exact ⟨List.mem_range.mp hi, List.mem_range.mp hj⟩
  · rintro ⟨h1, h2⟩
    refine List.mem_flatMap.mpr ⟨p.1, List.mem_range.mpr h1, ?_⟩
    refine List.mem_map.mpr ⟨p.2, List.mem_range.mpr h2, ?_⟩
    rfl

theorem mem_triPairs {n : Nat} {p : Nat × Nat} (hp : p ∈ triPairs n) :
    p.2 < p.1 ∧ p.1 < n := by
  rcases List.mem_flatMap.mp hp with ⟨i, hi, hmem⟩
  rcases List.mem_map.mp hmem with ⟨j, hj, rfl⟩
  exact ⟨List.mem_range.mp hj, List.mem_range.mp hi⟩

theorem adjGo_getD (adj : List Nat) (n : Nat) :
    ∀ (L : List (Nat × Nat)) (bv : List Nat), bv.length = n * n →
      (∀ p ∈ L, p.1 < n ∧ p.2 < n) → ∀ m : Nat,
      (adjGo adj n L bv).getD m 0 =
        if ∃ p, p ∈ L ∧ adj.getD (p.1 * n + p.2) 0 = 1 ∧
            (m = p.1 * n + p.2 ∨ m = p.2 * n + p.1)
        then 1 else bv.getD m 0 := by
  intro L
  induction L with
  | nil =>
    intro bv _ _ m
    simp [adjGo]
  | cons p ps ih =>
    intro bv hlen hmem m
    have hp := hmem p (List.mem_cons_self p ps)
    have hidx : p.1 * n + p.2 < n * n := idx_lt hp.1 hp.2
    have hjdx : p.2 * n + p.1 < n * n := idx_lt hp.2 hp.1
    have hmem' : ∀ q ∈ ps, q.1 < n ∧ q.2 < n :=
      fun q hq => hmem q (List.mem_cons_of_mem p hq)
    simp only [adjGo]
    by_cases hc : adj.getD (p.1 * n + p.2) 0 = 1
    · rw [if_pos hc]
      have hlen2 :
          ((bv.set (p.1 * n + p.2) 1).set (p.2 * n + p.1) 1).length = n * n := by
        simp [hlen]
      rw [ih _ hlen2 hmem' m]
      have hread :
          ((bv.set (p.1 * n + p.2) 1).set (p.2 * n + p.1) 1).getD m 0 =
            if m = p.1 * n + p.2 ∨ m = p.2 * n + p.1 then 1
            else bv.getD m 0 := by
        rw [getD_set_of_lt (by simpa [hlen] using hjdx),
          getD_set_of_lt (by simpa [hlen] using hidx)]
        by_cases h1 : m = p.2 * n + p.1 <;> by_cases h2 : m = p.1 * n + p.2 <;>
          simp [h1, h2]
      by_cases hex : ∃ q, q ∈ ps ∧ adj.getD (q.1 * n + q.2) 0 = 1 ∧
          (m = q.1 * n + q.2 ∨ m = q.2 * n + q.1)
      · rw [if_pos hex, if_pos ?_]
        obtain ⟨q, hq, hcq⟩ := hex
        exact ⟨q, List.mem_cons_of_mem p hq, hcq⟩
      · rw [if_neg hex, hread]
        by_cases hm : m = p.1 * n + p.2 ∨ m = p.2 * n + p.1
        · rw [if_pos hm, if_pos ⟨p, List.mem_cons_self p ps, hc, hm⟩]
        · rw [if_neg hm, if_neg ?_]
          rintro ⟨q, hq, hcq, hmq⟩
          rcases List.mem_cons.mp hq with rfl | hq'
          · exact hm hmq
          · exact hex ⟨q, hq', hcq, hmq⟩
    · rw [if_neg hc]
      rw [ih _ hlen hmem' m]
      by_cases hex : ∃ q, q ∈ ps ∧ adj.getD (q.1 * n + q.2) 0 = 1 ∧
          (m = q.1 * n + q.2 ∨ m = q.2 * n + q.1)
      · rw [if_pos hex, if_pos ?_]
        obtain ⟨q, hq, hcq⟩ := hex
        exact ⟨q, List.mem_cons_of_mem p hq, hcq⟩
      · rw [if_neg hex, if_neg ?_]
        rintro ⟨q, hq, hcq, hmq⟩
        rcases List.mem_cons.mp hq with rfl | hq'
        · exact hc hcq
        · exact hex ⟨q, hq', hcq, hmq⟩

theorem from_adj_ok {adj : List Nat} {g : Graph}
    (h : from_adj adj = Except.ok g) :
    g.n * g.n = adj.length ∧ g.n = isqrt adj.length ∧
      g.bit_vec = adjGo adj g.n (allPairs g.n) (List.replicate (g.n * g.n) 0) := by
  simp only [from_adj] at h
  by_cases hsq : isqrt adj.length * isqrt adj.length ≠ adj.length
  · rw [if_pos hsq] at h
    simp at h
  · rw [if_neg hsq] at h
    push_neg at hsq
    injection h with h
    subst h
    exact ⟨hsq, rfl, rfl⟩

theorem from_adj_read {adj : List Nat} {g : Graph}
    (h : from_adj adj = Except.ok g) {i j : Nat} (hi : i < g.n) (hj : j < g.n) :
    matRead g.bit_vec g.n i j =
      if adj.getD (i * g.n + j) 0 = 1 ∨ adj.getD (j * g.n + i) 0 = 1
      then 1 else 0 := by
  obtain ⟨hn2, _, hbv⟩ := from_adj_ok h
  rw [matRead, hbv,
    adjGo_getD adj g.n (allPairs g.n) _ (by simp)
      (fun p hp => mem_allPairs.mp hp) (i * g.n + j)]
  have hcond : (∃ p, p ∈ allPairs g.n ∧ adj.getD (p.1 * g.n + p.2) 0 = 1 ∧
      (i * g.n + j = p.1 * g.n + p.2 ∨ i * g.n + j = p.2 * g.n + p.1)) ↔
      (adj.getD (i * g.n + j) 0 = 1 ∨ adj.getD (j * g.n + i) 0 = 1) := by
    constructor
    · rintro ⟨p, hp, h1, h2 | h2⟩
      · obtain ⟨hA, hB⟩ := idx_inj hj (mem_allPairs.mp hp).2 h2
        exact Or.inl (by rw [hA, hB]; exact h1)
      · obtain ⟨hA, hB⟩ := idx_inj hj (mem_allPairs.mp hp).1 h2
        exact Or.inr (by rw [hA, hB]; exact h1)
    · rintro (h1 | h1)
      · exact ⟨(i, j), mem_allPairs.mpr ⟨hi, hj⟩, h1, Or.inl rfl⟩
      · exact ⟨(j, i), mem_allPairs.mpr ⟨hj, hi⟩, h1, Or.inr rfl⟩
  by_cases hor : adj.getD (i * g.n + j) 0 = 1 ∨ adj.getD (j * g.n + i) 0 = 1
  · rw [if_pos (hcond.mpr hor), if_pos hor]
  · rw [if_neg (fun hx => hor (hcond.mp hx)), if_neg hor, getD_replicate]

theorem triGo_inv (n : Nat) :
    ∀ (L : List (Nat × Nat)) (tri bv bv' : List Nat),
      (∀ p ∈ L, p.2 < p.1 ∧ p.1 < n) → bv.length = n * n →
      triGo n L tri bv = some bv' →
      (∀ i j, i < n → j < n → bv.getD (i * n + j) 0 = bv.getD (j * n + i) 0) →
      (∀ i, i < n → bv.getD (i * n + i) 0 = 0) →
      (∀ i j, i < n → j < n →
        bv'.getD (i * n + j) 0 = bv'.getD (j * n + i) 0) ∧
      (∀ i, i < n → bv'.getD (i * n + i) 0 = 0) := by
  intro L
  induction L with
  | nil =>
    intro tri bv bv' _ _ hrun hsym hdiag
    simp only [triGo, Option.some.injEq] at hrun
    subst hrun
    exact ⟨hsym, hdiag⟩
  | cons p ps ih =>
    intro tri bv bv' hmem hlen hrun hsym hdiag
    cases tri with
    | nil => simp [triGo] at hrun
    | cons v tri' =>
      simp only [triGo] at hrun
      have hp := hmem p (List.mem_cons_self p ps)
      have hi1 : p.1 < n := hp.2
      have hj1 : p.2 < n := Nat.lt_trans hp.1 hp.2
      have hidx : p.1 * n + p.2 < n * n := idx_lt hi1 hj1
      have hjdx : p.2 * n + p.1 < n * n := idx_lt hj1 hi1
      have hread : ∀ m,
          ((bv.set (p.1 * n + p.2) v).set (p.2 * n + p.1) v).getD m 0 =
            if m = p.1 * n + p.2 ∨ m = p.2 * n + p.1 then v
            else bv.getD m 0 := by
        intro m
        rw [getD_set_of_lt (by simpa [hlen] using hjdx),
          getD_set_of_lt (by simpa [hlen] using hidx)]
        by_cases h1 : m = p.2 * n + p.1 <;> by_cases h2 : m = p.1 * n + p.2 <;>
          simp [h1, h2]
      refine ih tri' _ bv'
        (fun q hq => hmem q (List.mem_cons_of_mem p hq)) (by simp [hlen])
        hrun ?_ ?_
      · intro i j hi hj
        rw [hread, hread]
        have he : (i * n + j = p.1 * n + p.2 ∨ i * n + j = p.2 * n + p.1) ↔
            (j * n + i = p.1 * n + p.2 ∨ j * n + i = p.2 * n + p.1) := by
          constructor
          · rintro (h1 | h1)
            · obtain ⟨hA, hB⟩ := idx_inj hj hj1 h1
              exact Or.inr (by rw [hA, hB])
            · obtain ⟨hA, hB⟩ := idx_inj hj hi1 h1
              exact Or.inl (by rw [hA, hB])
          · rintro (h1 | h1)
            · obtain ⟨hA, hB⟩ := idx_inj hi hj1 h1
              exact Or.inr (by rw [hA, hB])
            · obtain ⟨hA, hB⟩ := idx_inj hi hi1 h1
              exact Or.inl (by rw [hA, hB])
        by_cases hcnd : i * n + j = p.1 * n + p.2 ∨ i * n + j = p.2 * n + p.1
        · rw [if_pos hcnd, if_pos (he.mp hcnd)]
        · rw [if_neg hcnd, if_neg (fun hx => hcnd (he.mpr hx))]
          exact hsym i j hi hj
      · intro i hi
        rw [hread]
        rw [if_neg ?_]
        · exact hdiag i hi
        · rintro (h1 | h1)
          · obtain ⟨hA, hB⟩ := idx_inj hi hj1 h1
            omega
          · obtain ⟨hA, hB⟩ := idx_inj hi hi1 h1
            omega

theorem from_g6_ok {repr : List Nat} {g : Graph}
    (h : from_g6 repr = Except.ok g) :
    ∃ tri, fill_from_triangle tri g.n = some g.bit_vec := by
  unfold from_g6 at h
  cases hg : get_size repr 0 with
  | error e => rw [hg] at h; simp at h
  | ok n =>
    rw [hg] at h
    cases hb : g_build_bitvector repr n with
    | none => simp [hb] at h
    | some bv =>
      simp only [hb] at h
      injection h with h
      subst h
      simp only [g_build_bitvector, Option.bind_eq_bind, Option.bind_eq_some] at hb
      obtain ⟨bvLen, _, tri, _, htri⟩ := hb
      exact ⟨tri, htri⟩

theorem from_d6_header_pass (bs : List Nat) :
    from_d6 (38 :: bs) ≠ Except.error (Fail.ioerr GError.InvalidDigraphHeader) := by
  unfold from_d6
  split
  · simp
  · simp_all [valid_digraph]
  · split
    · simp
    · split <;> simp

theorem from_d6_header_fail {b : Nat} (hb : b ≠ 38) (bs : List Nat) :
    from_d6 (b :: bs) = Except.error (Fail.ioerr GError.InvalidDigraphHeader) := by
  unfold from_d6
  split
  · simp_all [valid_digraph]
  · rfl
  · simp_all [valid_digraph]

/-! ### Claims -/

/-- C1: the round-trip law `decode(encode(G)) = G` fails on the code.
For the 7-vertex directed graph whose only edge is 6→6 (a valid graph,
`n = 7 ≤ 62`), the encoder emits `ceil(49/6) = 9` data bytes, but
`DiGraph::build_bitvector` reads only `take(n) = 7` of them, so the
decoder's length adjustment underflows and decoding panics instead of
returning the graph. -/
theorem c1_directed_roundtrip_breaks :
    write_graph6 (List.replicate 48 0 ++ [1]) 7 true =
      some ([38, 70] ++ List.replicate 8 63 ++ [95]) ∧
    from_d6 ([38, 70] ++ List.replicate 8 63 ++ [95]) =
      Except.error Fail.panic :=
  ⟨rfl, rfl⟩

/-- C2: unpacking does not read exactly `ceil(len/6)` bytes, because the
`break` in `fill_bitvector` exits only the inner bit loop: with target
bit count 1 and two source bytes it reads both bytes and emits 7 bits,
not 1.  And the directed decoder consumes `take(n)` bytes, not
`ceil(n*n/6)`: with `n = 7` and all 9 data bytes present the body
unpacking still reads only 7 bytes (42 bits) and the length adjustment
to 49 bits panics. -/
theorem c2_unpack_overrun :
    fill_bitvector [63, 63] 1 0 = some [0, 0, 0, 0, 0, 0, 0] ∧
    d_build_bitvector ([38, 70] ++ List.replicate 9 63) 7 = none :=
  ⟨rfl, rfl⟩

/-- C3: truncated input is not reported as a typed error.  The
undirected string `"A"` (size byte implies one data byte, none present)
makes `fill_from_triangle` unwrap an exhausted iterator and panic; the
directed string `"&B"` makes the length adjustment underflow and panic.
No `UnexpectedEndOfInput`-style variant exists in the error enum. -/
theorem c3_truncated_input_panics :
    from_g6 [65] = Except.error Fail.panic ∧
    from_d6 [38, 66] = Except.error Fail.panic :=
  ⟨rfl, rfl⟩

/-- C4 counterexample: `Graph::from_adj` accepts a matrix with a 1 on
the diagonal and stores it unchanged, so not every constructed
undirected graph has a zero diagonal. -/
theorem c4_diag_cex :
    from_adj [1] = Except.ok ⟨[1], 1⟩ ∧ matRead [1] 1 0 0 = 1 :=
  ⟨rfl, rfl⟩

/-- C4 (amended): every undirected graph has a symmetric bit matrix,
however constructed; the diagonal is 0 for every graph decoded by
`from_g6`, and for graphs built by `from_adj` whenever the input matrix
has no 1 on its diagonal. -/
theorem c4_invariants :
    (∀ repr g, from_g6 repr = Except.ok g →
      (∀ i j, i < g.n → j < g.n →
        matRead g.bit_vec g.n i j = matRead g.bit_vec g.n j i) ∧
      (∀ i, i < g.n → matRead g.bit_vec g.n i i = 0)) ∧
    (∀ adj g, from_adj adj = Except.ok g →
      (∀ i j, i < g.n → j < g.n →
        matRead g.bit_vec g.n i j = matRead g.bit_vec g.n j i) ∧
      ((∀ i, i < g.n → adj.getD (i * g.n + i) 0 ≠ 1) →
        ∀ i, i < g.n → matRead g.bit_vec g.n i i = 0)) := by
  constructor
  · intro repr g hok
    obtain ⟨tri, htri⟩ := from_g6_ok hok
    unfold fill_from_triangle at htri
    have h := triGo_inv g.n (triPairs g.n) tri _ _
      (fun p hp => mem_triPairs hp) (by simp) htri
      (fun i j _ _ => by rw [getD_replicate, getD_replicate])
      (fun i _ => getD_replicate _ _)
    exact ⟨fun i j hi hj => h.1 i j hi hj, h.2⟩
  · intro adj g hok
    constructor
    · intro i j hi hj
      rw [from_adj_read hok hi hj, from_adj_read hok hj hi]
      exact if_congr Or.comm rfl rfl
    · intro hd i hi
      rw [from_adj_read hok hi hi, if_neg ?_]
      rintro (h1 | h1) <;> exact hd i hi h1

/-- C4 witness: the graph decoded from `"A_"`. -/
theorem c4_invariants_wit :
    matRead [0, 1, 1, 0] 2 0 1 = matRead [0, 1, 1, 0] 2 1 0 :=
  (c4_invariants.1 [65, 95] ⟨[0, 1, 1, 0], 2⟩ rfl).1 0 1 (by decide) (by decide)

/-- C5 counterexample: byte 127 is outside `[63,125]` yet decodes
successfully (to `n = 64`), so the valid size characters are not exactly
the range `[63,125]`. -/
theorem c5_cex : get_size [127] 0 = Except.ok 64 := rfl

/-- C5 (amended): size decoding returns `GraphTooLarge` exactly at byte
126 and `InvalidSizeChar` exactly below 63; every other byte — including
bytes in `[127,255]` — decodes to `byte - 63`. -/
theorem c5_size_codec :
    ∀ b : Nat, b < 256 →
      get_size [b] 0 =
        if b = 126 then Except.error (Fail.ioerr GError.GraphTooLarge)
        else if b < 63 then Except.error (Fail.ioerr GError.InvalidSizeChar)
        else Except.ok (b - 63) := by
  set_option maxRecDepth 8000 in decide

/-- C5 witness: byte 125 decodes to `n = 62`. -/
theorem c5_size_codec_wit : get_size [125] 0 = Except.ok 62 :=
  c5_size_codec 125 (by decide)

/-- C6: `DiGraph::from_d6` performs no size validation at all — it uses
the private `DiGraph::get_size` (`repr[1] - 63`) instead of the checked
size codec.  On `"&~"` (size byte 126) the claim requires
`GraphTooLarge`, and on `"&>"` (size byte 62) it requires
`InvalidSizeChar`; the code instead panics in both cases (the first via
the later length-adjust underflow, the second via the `u8` subtraction
underflow). -/
theorem c6_directed_size_unchecked :
    from_d6 [38, 126] = Except.error Fail.panic ∧
    from_d6 [38, 62] = Except.error Fail.panic :=
  ⟨rfl, rfl⟩

/-- C7: `from_adj` rejects exactly the non-perfect-square lengths with
`InvalidAdjacencyMatrix` (in particular a slice of length 5); on
success, for 0/1 inputs, the stored matrix is the OR-symmetrization of
the input. -/
theorem c7_from_adj_spec :
    (∀ adj : List Nat,
      from_adj adj = Except.error (Fail.ioerr GError.InvalidAdjacencyMatrix) ↔
        ¬∃ k, k * k = adj.length) ∧
    from_adj [0, 0, 1, 0, 1] =
      Except.error (Fail.ioerr GError.InvalidAdjacencyMatrix) ∧
    (∀ (adj : List Nat) (g : Graph), from_adj adj = Except.ok g →
      (∀ v ∈ adj, v = 0 ∨ v = 1) →
      ∀ i j, i < g.n → j < g.n →
        matRead g.bit_vec g.n i j =
          max (adj.getD (i * g.n + j) 0) (adj.getD (j * g.n + i) 0)) := by
  refine ⟨?_, rfl, ?_⟩
  · intro adj
    constructor
    · intro h hex
      obtain ⟨k, hk⟩ := hex
      have hik : isqrt adj.length = k := by
        rw [isqrt_eq_sqrt, ← hk, Nat.sqrt_eq]
      have hcond : ¬(isqrt adj.length * isqrt adj.length ≠ adj.length) := by
        rw [hik]
        exact fun hne => hne hk
      simp only [from_adj] at h
      rw [if_neg hcond] at h
      simp at h
    · intro hne
      have hcond : isqrt adj.length * isqrt adj.length ≠ adj.length :=
        fun heq => hne ⟨isqrt adj.length, heq⟩
      simp only [from_adj]
      rw [if_pos hcond]
  · intro adj g hok hvals i j hi hj
    rw [from_adj_read hok hi hj]
    have h01 : ∀ k, adj.getD k 0 = 0 ∨ adj.getD k 0 = 1 := by
      intro k
      rcases Nat.lt_or_ge k adj.length with hk | hk
      · rw [List.getD_eq_getElem?_getD, List.getElem?_eq_getElem hk]
        exact hvals _ (List.getElem_mem hk)
      · rw [List.getD_eq_getElem?_getD, List.getElem?_eq_none hk]
        exact Or.inl rfl
    rcases h01 (i * g.n + j) with hA | hA <;>
      rcases h01 (j * g.n + i) with hB | hB <;> rw [hA, hB] <;> simp

/-- C7 witness: the matrix `[0,0,1,0]` is OR-symmetrized to `[0,1,1,0]`. -/
theorem c7_from_adj_spec_wit :
    matRead [0, 1, 1, 0] 2 0 1 =
      max (List.getD [0, 0, 1, 0] (0 * 2 + 1) 0)
        (List.getD [0, 0, 1, 0] (1 * 2 + 0) 0) :=
  c7_from_adj_spec.2.2 [0, 0, 1, 0] ⟨[0, 1, 1, 0], 2⟩ rfl (by decide) 0 1
    (by decide) (by decide)

/-- C8: the five concrete vectors of the spec, evaluated on the code:
`"A_"`, `"A?"`, `"&AG"` decode as stated, `write_graph6` re-encodes
`&AG`, and `"Bw"` decodes to the full triangle. -/
theorem c8_vectors :
    from_g6 [65, 95] = Except.ok ⟨[0, 1, 1, 0], 2⟩ ∧
    from_g6 [65, 63] = Except.ok ⟨[0, 0, 0, 0], 2⟩ ∧
    from_d6 [38, 65, 71] = Except.ok ⟨[0, 0, 1, 0], 2⟩ ∧
    write_graph6 [0, 0, 1, 0] 2 true = some [38, 65, 71] ∧
    from_g6 [66, 119] = Except.ok ⟨[0, 1, 1, 1, 0, 1, 1, 1, 0], 3⟩ :=
  ⟨rfl, rfl, rfl, rfl, rfl⟩

/-- C9: the undirected codec is total only for `n ≥ 1`: decoding the
valid one-character string `"?"` (`n = 0`) panics in the `n*(n-1)/2`
underflow, and so does encoding the empty undirected graph; for every
`n ≥ 1` the same expression evaluates without underflow. -/
theorem c9_zero_underflow :
    from_g6 [63] = Except.error Fail.panic ∧
    write_graph6 [] 0 false = none ∧
    ∀ n : Nat, 1 ≤ n → tri_len n = some (n * (n - 1) / 2) := by
  refine ⟨rfl, rfl, fun n hn => ?_⟩
  simp [tri_len, checkedSub, hn]

/-- C9 witness: `n = 3` gives triangle length 3. -/
theorem c9_zero_underflow_wit : tri_len 3 = some 3 :=
  c9_zero_underflow.2.2 3 (by decide)

/-- C10: `DiGraph::from_d6` indexes the first byte unconditionally, so
the empty input panics; for every non-empty input it rejects with
`InvalidDigraphHeader` exactly when the first byte is not `&` (38). -/
theorem c10_header_total :
    from_d6 [] = Except.error Fail.panic ∧
    ∀ b bs, (from_d6 (b :: bs) =
        Except.error (Fail.ioerr GError.InvalidDigraphHeader) ↔ b ≠ 38) := by
  refine ⟨rfl, fun b bs => ?_⟩
  by_cases hb : b = 38
  · subst hb
    exact ⟨fun h => absurd h (from_d6_header_pass bs), fun h => absurd rfl h⟩
  · exact ⟨fun _ => hb, fun _ => from_d6_header_fail hb bs⟩

/-- C10 witness: `"AG"` (no `&` header) is rejected. -/
theorem c10_header_total_wit :
    from_d6 [65, 71] = Except.error (Fail.ioerr GError.InvalidDigraphHeader) :=
  (c10_header_total.2 65 [71]).mpr (by decide)

end Graph6
